import Mathlib

/-!
Verification of the shared number-theory utilities, the solution-module
layout and the self-check harness of the `euler` repository (a collection
of Project Euler solutions in Python).

Embedding conventions:
* Python's arbitrary-precision non-negative integers are modelled as `Nat`,
  signed ones as `Int`.
* Python's `%` on integers is floor-mod; every call site modelled here has a
  positive divisor, where floor-mod coincides with Lean's `Int.emod` (`%`),
  and with `Nat.mod` on naturals.
* `int(1 + math.sqrt(n))`, used as a loop bound, is modelled as
  `1 + Nat.sqrt n` (the exact value of the expression whenever the float
  square root is exact; a float rounded up past an integer could only add
  one redundant trial index, which never changes any of the functions'
  results).
* A Python list of booleans of length `n` indexed by position is modelled by
  its indexing function `Nat → Bool` (only indices `< n` are ever read);
  slice assignments such as `r[a::s] = [False] * len(r[a::s])` become
  pointwise updates guarded by `a ≤ j ∧ j < n ∧ (j - a) % s = 0`.
* A Python dict used as a memo cache is modelled as an association list
  `List (Nat × β)`; `k in memo` / `memo[k]` become `memoLookup`, and
  `memo[k] = v` becomes consing `(k, v)`.
* An unbounded `for k in it.count(1)` search loop is modelled relationally:
  the loop returns `k` iff `k` is the first index satisfying the test.
-/

namespace Euler

/-! ### `isqrt` (src/euler/__init__.py, lines 34-45)

```
def isqrt(n):
    if n == 0:
        return 0
    x = n
    y = (x + n // x) // 2
    while y < x:
        x = y
        y = (x + n // x) // 2
    if x ** 2 != n:
        raise ValueError('input was not a perfect square')
    return x
```
The `while` loop is the recursion `isqrtAux`; raising `ValueError` is
modelled by returning `none`. -/

def isqrtAux (n x : Nat) : Nat :=
  let y := (x + n / x) / 2
  if _h : y < x then isqrtAux n y else x
termination_by x
decreasing_by exact _h

def isqrt (n : Nat) : Option Nat :=
  if n = 0 then some 0
  else
    let x := isqrtAux n n
    if x ^ 2 = n then some x else none

/-- One Newton step never goes below `Nat.sqrt n`. -/
lemma sqrt_le_newton_step (n x : Nat) (hx : 0 < x) :
    Nat.sqrt n ≤ (x + n / x) / 2 := by
  set s := Nat.sqrt n with hs
  have hsq : s * s ≤ n := Nat.sqrt_le n
  have hq : 2 * s ≤ x + n / x := by
    rcases le_or_lt (2 * s) x with h | h
    · exact le_trans h (Nat.le_add_right _ _)
    · -- x < 2 * s : use (2*s - x) * x ≤ s * s, hence 2*s - x ≤ s*s/x ≤ n/x
      have hkey : (2 * s - x) * x ≤ s * s := by
        zify [le_of_lt h]
        nlinarith [sq_nonneg ((s : Int) - (x : Int))]
      have h1 : 2 * s - x ≤ (s * s) / x := (Nat.le_div_iff_mul_le hx).mpr hkey
      have h2 : (s * s) / x ≤ n / x := Nat.div_le_div_right hsq
      omega
  have h3 : (2 * s) / 2 ≤ (x + n / x) / 2 := Nat.div_le_div_right hq
  omega

/-- While `x` is above `Nat.sqrt n`, the Newton step strictly decreases. -/
lemma newton_step_lt (n x : Nat) (hx : Nat.sqrt n < x) :
    (x + n / x) / 2 < x := by
  have hs : n < (Nat.sqrt n + 1) * (Nat.sqrt n + 1) := Nat.lt_succ_sqrt n
  have h1 : n / x ≤ n / (Nat.sqrt n + 1) := Nat.div_le_div_left hx (by omega)
  have h2 : n / (Nat.sqrt n + 1) < Nat.sqrt n + 1 :=
    (Nat.div_lt_iff_lt_mul (by omega)).mpr hs
  omega

/-- The Newton loop, started at or above `Nat.sqrt n`, returns `Nat.sqrt n`. -/
lemma isqrtAux_eq_sqrt (n : Nat) (hn : 0 < n) :
    ∀ x, 0 < x → Nat.sqrt n ≤ x → isqrtAux n x = Nat.sqrt n := by
  intro x
  induction x using Nat.strong_induction_on with
  | _ x ih =>
    intro hx hsx
    rw [isqrtAux]
    rcases eq_or_lt_of_le hsx with heq | hlt
    · have : ¬ ((x + n / x) / 2 < x) := by
        have := sqrt_le_newton_step n x hx
        omega
      simp only [this, dite_false]
      omega
    · have hstep : (x + n / x) / 2 < x := newton_step_lt n x hlt
      simp only [hstep, dite_true]
      have hy : Nat.sqrt n ≤ (x + n / x) / 2 := sqrt_le_newton_step n x hx
      have hy0 : 0 < (x + n / x) / 2 := by
        have h0 : 0 < Nat.sqrt n := Nat.sqrt_pos.mpr hn
        omega
      exact ih _ hstep hy0 hy


/-- `isqrt` succeeds exactly on perfect squares, returning the square root. -/
lemma isqrt_eq_some_iff : ∀ n x : Nat, isqrt n = some x ↔ x * x = n := by
  intro n x
  by_cases hn0 : n = 0
  · subst hn0
    rw [show isqrt 0 = some 0 from rfl]
    constructor
    · intro h
      have hx := Option.some.inj h
      rw [← hx]
    · intro h
      have hx : x = 0 := mul_self_eq_zero.mp h
      rw [hx]
  · have h0 : 0 < n := Nat.pos_of_ne_zero hn0
    unfold isqrt
    rw [if_neg hn0, isqrtAux_eq_sqrt n h0 n h0 (Nat.sqrt_le_self n)]
    by_cases hsq : Nat.sqrt n ^ 2 = n
    · rw [if_pos hsq]
      constructor
      · intro h
        have hx := Option.some.inj h
        rw [← hx, ← pow_two]
        exact hsq
      · intro h
        have hx : x = Nat.sqrt n := by rw [← h, Nat.sqrt_eq]
        rw [hx]
    · rw [if_neg hsq]
      constructor
      · intro h; cases h
      · intro h
        exfalso
        have hx : Nat.sqrt n = x := by rw [← h, Nat.sqrt_eq]
        apply hsq
        rw [hx, pow_two]
        exact h

/-- CLAIM C6: for every `n ≥ 0`, `isqrt(n)` returns the unique `x ≥ 0` with
`x * x = n` when `n` is a perfect square, and raises `ValueError` (modelled
as `none`) exactly when `n` is not a perfect square. -/
theorem c6_isqrt_correct :
    ∀ n : Nat, (∀ x : Nat, isqrt n = some x ↔ x * x = n) ∧
      (isqrt n = none ↔ ∀ x : Nat, x * x ≠ n) := by
  intro n
  refine ⟨isqrt_eq_some_iff n, ?_⟩
  constructor
  · intro h x hx
    have hs := (isqrt_eq_some_iff n x).mpr hx
    rw [h] at hs
    cases hs
  · intro h
    cases hi : isqrt n with
    | none => rfl
    | some x => exact absurd ((isqrt_eq_some_iff n x).mp hi) (h x)

/-! ### `pentagonal` and `is_pentagonal` (src/euler/__init__.py, lines 92-94
and 190-195)

```
def pentagonal(n):
    return n * (3 * n - 1) // 2

def is_pentagonal(n):
    try:
        x = isqrt(24 * n + 1)
    except ValueError:
        return False
    return (x + 1) % 6 == 0
```
The `try`/`except ValueError` around `isqrt` becomes a `match` on its
`Option` result. -/

def pentagonal (n : Nat) : Nat := n * (3 * n - 1) / 2

def is_pentagonal (n : Nat) : Bool :=
  match isqrt (24 * n + 1) with
  | none => false
  | some x => (x + 1) % 6 == 0

/-- For `k ≥ 1`, `24 * pentagonal k + 1` is the square of `6 * k - 1`. -/
lemma pent_sq (k : Nat) (hk : 1 ≤ k) :
    24 * pentagonal k + 1 = (6 * k - 1) * (6 * k - 1) := by
  have h2 : 2 ∣ k * (3 * k - 1) := by
    rcases Nat.even_or_odd k with he | ho
    · exact (he.two_dvd).mul_right _
    · have hd : 2 ∣ 3 * k - 1 := by
        obtain ⟨m, hm⟩ := ho
        omega
      exact hd.mul_left _
  obtain ⟨q, hq⟩ := h2
  have hpq : pentagonal k = q := by
    unfold pentagonal
    rw [hq]
    exact Nat.mul_div_cancel_left q (by omega)
  rw [hpq]
  zify [show 1 ≤ 6 * k by omega, show 1 ≤ 3 * k by omega] at hq ⊢
  linear_combination (-12 : Int) * hq

/-- CLAIM C10: `is_pentagonal` is a round-trip inverse of `pentagonal`:
for every `k ≥ 1`, `is_pentagonal (pentagonal k) = true`, and for every
`n ≥ 1`, if `is_pentagonal n = true` then `n = pentagonal k` for some
`k ≥ 1`. -/
theorem c10_is_pentagonal_round_trip :
    (∀ k : Nat, 1 ≤ k → is_pentagonal (pentagonal k) = true) ∧
      (∀ n : Nat, 1 ≤ n → is_pentagonal n = true →
        ∃ k : Nat, 1 ≤ k ∧ n = pentagonal k) := by
  constructor
  · intro k hk
    have hval := pent_sq k hk
    have hx : isqrt (24 * pentagonal k + 1) = some (6 * k - 1) :=
      (isqrt_eq_some_iff _ _).mpr hval.symm
    unfold is_pentagonal
    rw [hx]
    have h6 : (6 * k - 1 + 1) % 6 = 0 := by omega
    simpa using h6
  · intro n hn hp
    unfold is_pentagonal at hp
    cases hx : isqrt (24 * n + 1) with
    | none => rw [hx] at hp; cases hp
    | some x =>
      rw [hx] at hp
      have hxx : x * x = 24 * n + 1 := (isqrt_eq_some_iff _ _).mp hx
      have hmod : (x + 1) % 6 = 0 := by simpa using hp
      have hx5 : 5 ≤ x := by nlinarith [hxx, hn]
      obtain ⟨k, hk⟩ : ∃ k, x + 1 = 6 * k := ⟨(x + 1) / 6, by omega⟩
      have hk1 : 1 ≤ k := by omega
      refine ⟨k, hk1, ?_⟩
      have hval := pent_sq k hk1
      have hxe : x = 6 * k - 1 := by omega
      rw [hxe] at hxx
      omega

/-! ### `is_prime` (src/euler/__init__.py, lines 137-148)

```
def is_prime(n, memo={1: False, 2: True, 3: True}):
    if n not in memo:
        memo[n] = False if n % 2 == 0 or n <= 0 else all(n % i for i in range(3, int(1 + math.sqrt(n)), 2))
    return memo[n]
```
`isPrimeRaw` is the expression computed on a memo miss; `is_prime` is the
value returned on a first call (the seeded entries `1 ↦ False`, `2 ↦ True`,
`3 ↦ True` never miss).  `range(3, 1 + isqrt(n), 2)` has
`(Nat.sqrt n - 1) / 2` elements and is `List.range' 3 _ 2`. -/

def isPrimeRaw (k : Nat) : Bool :=
  if k % 2 = 0 ∨ k = 0 then false
  else (List.range' 3 ((Nat.sqrt k - 1) / 2) 2).all (fun i => decide (k % i ≠ 0))

def is_prime (k : Nat) : Bool :=
  if k = 1 then false
  else if k = 2 then true
  else if k = 3 then true
  else isPrimeRaw k

/-- The trial-division test agrees with primality. -/
lemma is_prime_iff_prime : ∀ k : Nat, is_prime k = true ↔ Nat.Prime k := by
  intro k
  by_cases hk0 : k = 0
  · subst hk0; decide
  by_cases hk1 : k = 1
  · subst hk1; decide
  by_cases hk2 : k = 2
  · subst hk2; decide
  by_cases hk3 : k = 3
  · subst hk3; decide
  · have hk4 : 4 ≤ k := by omega
    have hptest : is_prime k = isPrimeRaw k := by
      unfold is_prime
      rw [if_neg (by omega), if_neg (by omega), if_neg (by omega)]
    rw [hptest]
    by_cases heven : k % 2 = 0
    · rw [isPrimeRaw, if_pos (Or.inl heven)]
      constructor
      · intro h; cases h
      · intro hp
        exfalso
        have h2 : (2 : Nat) ∣ k := by omega
        rcases hp.eq_one_or_self_of_dvd 2 h2 with h | h <;> omega
    · rw [isPrimeRaw, if_neg (by omega)]
      rw [List.all_eq_true]
      constructor
      · intro hall
        by_contra hnp
        have hp := Nat.minFac_prime (show k ≠ 1 by omega)
        have hdvd := Nat.minFac_dvd k
        have hsq : Nat.minFac k ^ 2 ≤ k := Nat.minFac_sq_le_self (by omega) hnp
        have hle : Nat.minFac k ≤ Nat.sqrt k := Nat.le_sqrt'.mpr hsq
        have hodd : Nat.minFac k % 2 = 1 := by
          rcases hp.eq_two_or_odd with h2 | h1
          · exfalso
            rw [h2] at hdvd
            omega
          · exact h1
        have h3 : 3 ≤ Nat.minFac k := by
          have := hp.two_le
          omega
        have hmem : Nat.minFac k ∈ List.range' 3 ((Nat.sqrt k - 1) / 2) 2 := by
          rw [List.mem_range']
          exact ⟨(Nat.minFac k - 3) / 2, by omega, by omega⟩
        have := hall _ hmem
        simp only [decide_eq_true_eq] at this
        exact this (by omega)
      · intro hp i hi
        rw [List.mem_range'] at hi
        obtain ⟨j, hj, hij⟩ := hi
        have h3 : 3 ≤ i := by omega
        have hle : i ≤ Nat.sqrt k := by omega
        have hik : i < k := by
          have := Nat.sqrt_lt_self (show 1 < k by omega)
          omega
        simp only [decide_eq_true_eq]
        intro hmod
        have hdvd : i ∣ k := by omega
        rcases (Nat.Prime.eq_one_or_self_of_dvd hp i hdvd) with h | h <;> omega

/-! ### `primes` (src/euler/__init__.py, lines 151-170)

```
def primes(n):
    if n <= 2:
        return []
    r = [True] * n
    r[0] = r[1] = False
    r[4::2] = [False] * len(r[4::2])
    for i in range(int(1 + math.sqrt(n))):
        if r[i]:
            r[3*i::2*i] = [False] * len(r[3*i::2*i])
    return [i for i, x in enumerate(r) if x]
```
The boolean list `r` of length `n` is modelled by its indexing function;
`sieveMark n r a s` is the slice assignment `r[a::s] = [False] * _`,
`sieveInit` is `[True] * n` after `r[0] = r[1] = False`, and `sieveUpTo n k`
is the state of `r` after loop iterations `i = 0, ..., k - 1`. -/

def sieveMark (n : Nat) (r : Nat → Bool) (start step : Nat) : Nat → Bool :=
  fun j => if start ≤ j ∧ j < n ∧ (j - start) % step = 0 then false else r j

def sieveInit : Nat → Bool := fun j => decide (2 ≤ j)

def sieveStep (n : Nat) (r : Nat → Bool) (i : Nat) : Nat → Bool :=
  if r i then sieveMark n r (3 * i) (2 * i) else r

def sieveUpTo (n k : Nat) : Nat → Bool :=
  (List.range k).foldl (sieveStep n) (sieveMark n sieveInit 4 2)

def primes (n : Nat) : List Nat :=
  if n ≤ 2 then []
  else (List.range n).filter (fun i => sieveUpTo n (1 + Nat.sqrt n) i)

/-- Survivor characterization of the sieve state after `k` loop passes:
`j` is still `True` iff `j = 2`, or `j` is odd, at least `3`, and has no odd
proper divisor `d` with `3 ≤ d < k`. -/
def NoOddFac (k j : Nat) : Prop :=
  ∀ d, 3 ≤ d → d % 2 = 1 → d < k → d ∣ j → d = j

def Surv (k j : Nat) : Prop :=
  j = 2 ∨ (j % 2 = 1 ∧ 3 ≤ j ∧ NoOddFac k j)

lemma sieveUpTo_succ (n k : Nat) :
    sieveUpTo n (k + 1) = sieveStep n (sieveUpTo n k) k := by
  unfold sieveUpTo
  rw [List.range_succ, List.foldl_append, List.foldl_cons, List.foldl_nil]

/-- For odd `k ≥ 3` and odd `j`, pass `k` marks `j` iff `j` is a multiple of
`k` other than `k` itself. -/
lemma marked_odd_iff (k j : Nat) (_h3 : 3 ≤ k) (hko : k % 2 = 1)
    (hjo : j % 2 = 1) :
    (3 * k ≤ j ∧ (j - 3 * k) % (2 * k) = 0) ↔ (k ∣ j ∧ j ≠ k) := by
  constructor
  · rintro ⟨hle, hmod⟩
    obtain ⟨t, ht⟩ := Nat.dvd_of_mod_eq_zero hmod
    have hj : j = k * (3 + 2 * t) := by
      calc j = 3 * k + (j - 3 * k) := by omega
      _ = 3 * k + 2 * k * t := by rw [ht]
      _ = k * (3 + 2 * t) := by ring
    exact ⟨⟨3 + 2 * t, hj⟩, by omega⟩
  · rintro ⟨⟨m, hm⟩, hne⟩
    have hmul := Nat.mul_mod k m 2
    rw [← hm] at hmul
    have hmo : m % 2 = 1 := by
      rw [hjo, hko, one_mul] at hmul
      omega
    have hm3 : 3 ≤ m := by
      rcases Nat.lt_or_ge m 3 with h | h
      · interval_cases m <;> omega
      · exact h
    constructor
    · calc 3 * k = k * 3 := by ring
      _ ≤ k * m := Nat.mul_le_mul_left k hm3
      _ = j := hm.symm
    · obtain ⟨u, hu⟩ : ∃ u, m - 3 = 2 * u := ⟨(m - 3) / 2, by omega⟩
      have hdist : k * (m - 3) + k * 3 = k * m := by
        have h := Nat.sub_add_cancel hm3
        calc k * (m - 3) + k * 3 = k * ((m - 3) + 3) := by ring
        _ = k * m := by rw [h]
      have hje : j - 3 * k = 2 * k * u := by
        have hku : k * (m - 3) = 2 * k * u := by rw [hu]; ring
        omega
      rw [hje]
      exact Nat.mul_mod_right (2 * k) u
  
/-- For odd `k`, pass `k` never marks an even index. -/
lemma marked_even_not (k j : Nat) (hko : k % 2 = 1) (hje : j % 2 = 0) :
    ¬ (3 * k ≤ j ∧ (j - 3 * k) % (2 * k) = 0) := by
  rintro ⟨hle, hmod⟩
  obtain ⟨t, ht⟩ := Nat.dvd_of_mod_eq_zero hmod
  have hj : j = k * (3 + 2 * t) := by
    calc j = 3 * k + (j - 3 * k) := by omega
    _ = 3 * k + 2 * k * t := by rw [ht]
    _ = k * (3 + 2 * t) := by ring
  have hmul := Nat.mul_mod k (3 + 2 * t) 2
  rw [← hj, hko, one_mul] at hmul
  omega

/-- The sieve invariant: after loop passes `0, ..., k - 1`, position `j < n`
is still `True` exactly when `Surv k j` holds. -/
lemma sieve_inv (n : Nat) (hn : 3 ≤ n) :
    ∀ k, k ≤ 1 + Nat.sqrt n → ∀ j, j < n → (sieveUpTo n k j = true ↔ Surv k j) := by
  intro k
  induction k with
  | zero =>
    intro _ j hj
    show sieveMark n sieveInit 4 2 j = true ↔ Surv 0 j
    unfold sieveMark sieveInit Surv NoOddFac
    by_cases hm : 4 ≤ j ∧ j < n ∧ (j - 4) % 2 = 0
    · rw [if_pos hm]
      constructor
      · intro h; cases h
      · rintro (h2 | ⟨ho, hge, _⟩) <;> omega
    · rw [if_neg hm]
      constructor
      · intro h
        have h2 : 2 ≤ j := by simpa using h
        rcases Nat.lt_or_ge j 4 with h4 | h4
        · interval_cases j
          · left; rfl
          · right; exact ⟨by omega, by omega, fun d h3 _ hd _ => by omega⟩
        · right
          refine ⟨by omega, by omega, fun d h3 _ hd _ => by omega⟩
      · rintro (h2 | ⟨ho, hge, _⟩) <;> simp <;> omega
  | succ k ih =>
    intro hk j hj
    have hkb : k ≤ 1 + Nat.sqrt n := by omega
    have ihk := ih hkb
    have hkn : k < n := by
      have h1 : Nat.sqrt n < n := Nat.sqrt_lt_self (by omega)
      omega
    rw [sieveUpTo_succ]
    unfold sieveStep
    by_cases hrk : sieveUpTo n k k = true
    · rw [if_pos hrk]
      have hSk : Surv k k := (ihk k hkn).mp hrk
      show sieveMark n (sieveUpTo n k) (3 * k) (2 * k) j = true ↔ Surv (k + 1) j
      unfold sieveMark
      rcases hSk with hk2 | ⟨hko, hk3, hkno⟩
      · -- k = 2 : marks only even positions ≥ 6, and Surv 3 = Surv 2 on them
        subst hk2
        by_cases hm : 3 * 2 ≤ j ∧ j < n ∧ (j - 3 * 2) % (2 * 2) = 0
        · rw [if_pos hm]
          constructor
          · intro h; cases h
          · rintro (h2 | ⟨ho, hge, _⟩) <;> omega
        · rw [if_neg hm]
          rw [ihk j hj]
          unfold Surv NoOddFac
          constructor
          · rintro (h2 | ⟨ho, hge, hno⟩)
            · left; exact h2
            · right
              exact ⟨ho, hge, fun d h3 hdo hdk hdvd => hno d h3 hdo (by omega) hdvd⟩
          · rintro (h2 | ⟨ho, hge, hno⟩)
            · left; exact h2
            · right
              exact ⟨ho, hge, fun d h3 hdo hdk hdvd => hno d h3 hdo (by omega) hdvd⟩
      · -- k odd, k ≥ 3, with no small odd factor
        by_cases hjo : j % 2 = 1
        · -- odd j : marked iff k ∣ j and j ≠ k
          by_cases hdv : k ∣ j ∧ j ≠ k
          · have hm : 3 * k ≤ j ∧ (j - 3 * k) % (2 * k) = 0 :=
              (marked_odd_iff k j hk3 hko hjo).mpr hdv
            rw [if_pos ⟨hm.1, hj, hm.2⟩]
            constructor
            · intro h; cases h
            · rintro (h2 | ⟨ho, hge, hno⟩)
              · omega
              · exact (hdv.2 (hno k hk3 hko (by omega) hdv.1).symm).elim
          · have hm : ¬ (3 * k ≤ j ∧ j < n ∧ (j - 3 * k) % (2 * k) = 0) := by
              intro hcon
              exact hdv ((marked_odd_iff k j hk3 hko hjo).mp ⟨hcon.1, hcon.2.2⟩)
            rw [if_neg hm]
            rw [ihk j hj]
            unfold Surv NoOddFac
            constructor
            · rintro (h2 | ⟨ho, hge, hno⟩)
              · left; exact h2
              · right
                refine ⟨ho, hge, fun d h3 hdo hdk hdvd => ?_⟩
                rcases Nat.lt_or_ge d k with hdk2 | hdk2
                · exact hno d h3 hdo hdk2 hdvd
                · have hdek : d = k := by omega
                  subst hdek
                  rcases Decidable.em (j = d) with he | he
                  · exact he.symm
                  · exact absurd ⟨hdvd, he⟩ hdv
            · rintro (h2 | ⟨ho, hge, hno⟩)
              · left; exact h2
              · right
                exact ⟨ho, hge, fun d h3 hdo hdk hdvd => hno d h3 hdo (by omega) hdvd⟩
        · -- even j : never marked by an odd pass; Surv unchanged
          have hje : j % 2 = 0 := by omega
          have hm : ¬ (3 * k ≤ j ∧ j < n ∧ (j - 3 * k) % (2 * k) = 0) := by
            intro hcon
            exact marked_even_not k j hko hje ⟨hcon.1, hcon.2.2⟩
          rw [if_neg hm]
          rw [ihk j hj]
          unfold Surv NoOddFac
          constructor
          · rintro (h2 | ⟨ho, hge, hno⟩)
            · left; exact h2
            · omega
          · rintro (h2 | ⟨ho, hge, hno⟩)
            · left; exact h2
            · omega
    · rw [if_neg hrk]
      have hnSk : ¬ Surv k k := fun h => hrk ((ihk k hkn).mpr h)
      rw [ihk j hj]
      unfold Surv NoOddFac
      constructor
      · rintro (h2 | ⟨ho, hge, hno⟩)
        · left; exact h2
        · right
          refine ⟨ho, hge, fun d h3 hdo hdk hdvd => ?_⟩
          rcases Nat.lt_or_ge d k with hdk2 | hdk2
          · exact hno d h3 hdo hdk2 hdvd
          · have hdek : d = k := by omega
            -- d = k divides j ; k itself has a smaller odd factor, contradiction
            exfalso
            have hknotsurv := hnSk
            unfold Surv NoOddFac at hknotsurv
            push_neg at hknotsurv
            obtain ⟨e, he3, heo, hek, hedvd, hene⟩ :=
              hknotsurv.2 (by omega) (by omega)
            have hedj : e ∣ j := dvd_trans (hdek ▸ hedvd) hdvd
            have heje : e = j := hno e he3 heo (by omega) hedj
            have hjd : j ∣ d := by
              rw [← heje, hdek]
              exact hedvd
            have hdlej : d ≤ j := Nat.le_of_dvd (by omega) hdvd
            have hjled : j ≤ d := Nat.le_of_dvd (by omega) hjd
            omega
      · rintro (h2 | ⟨ho, hge, hno⟩)
        · left; exact h2
        · right
          exact ⟨ho, hge, fun d h3 hdo hdk hdvd => hno d h3 hdo (by omega) hdvd⟩

/-- After all passes, position `j < n` survives iff `j` is prime. -/
lemma sieve_final (n : Nat) (hn : 3 ≤ n) (j : Nat) (hj : j < n) :
    sieveUpTo n (1 + Nat.sqrt n) j = true ↔ Nat.Prime j := by
  rw [sieve_inv n hn (1 + Nat.sqrt n) le_rfl j hj]
  unfold Surv NoOddFac
  constructor
  · rintro (h2 | ⟨ho, h3, hno⟩)
    · rw [h2]; exact Nat.prime_two
    · by_contra hnp
      have hp := Nat.minFac_prime (show j ≠ 1 by omega)
      have hdvd := Nat.minFac_dvd j
      have hsq : Nat.minFac j ^ 2 ≤ j := Nat.minFac_sq_le_self (by omega) hnp
      have hle : Nat.minFac j ≤ Nat.sqrt j := Nat.le_sqrt'.mpr hsq
      have hlen : Nat.sqrt j ≤ Nat.sqrt n := Nat.sqrt_le_sqrt (by omega)
      have hodd : Nat.minFac j % 2 = 1 := by
        rcases hp.eq_two_or_odd with h2 | h1
        · exfalso
          rw [h2] at hdvd
          omega
        · exact h1
      have h3f : 3 ≤ Nat.minFac j := by
        have := hp.two_le
        omega
      have heq : Nat.minFac j = j := hno _ h3f hodd (by omega) hdvd
      have hj3 : 3 * j ≤ j * j := Nat.mul_le_mul_right j h3
      rw [heq, pow_two] at hsq
      omega
  · intro hp
    rcases hp.eq_two_or_odd with h2 | ho
    · left; exact h2
    · right
      refine ⟨ho, by have := hp.two_le; omega, fun d h3 hdo hdk hdvd => ?_⟩
      rcases hp.eq_one_or_self_of_dvd d hdvd with h | h <;> omega

/-- Membership characterization of `primes`. -/
lemma primes_mem (n p : Nat) : p ∈ primes n ↔ Nat.Prime p ∧ p < n := by
  unfold primes
  by_cases hn : n ≤ 2
  · rw [if_pos hn]
    simp only [List.not_mem_nil, false_iff]
    rintro ⟨hp, hlt⟩
    have := hp.two_le
    omega
  · rw [if_neg hn]
    rw [List.mem_filter, List.mem_range]
    constructor
    · rintro ⟨hlt, hs⟩
      exact ⟨(sieve_final n (by omega) p hlt).mp (by simpa using hs), hlt⟩
    · rintro ⟨hp, hlt⟩
      exact ⟨hlt, by simpa using (sieve_final n (by omega) p hlt).mpr hp⟩

/-- `primes n` is strictly increasing. -/
lemma primes_sorted (n : Nat) : List.Pairwise (· < ·) (primes n) := by
  unfold primes
  by_cases hn : n ≤ 2
  · rw [if_pos hn]; exact List.Pairwise.nil
  · rw [if_neg hn]
    exact List.Pairwise.sublist (List.filter_sublist _) (List.pairwise_lt_range n)

/-- CLAIM C1: for every `n ≥ 0`, `primes(n)` returns exactly the list of
prime numbers strictly less than `n`, in increasing order (in particular
`primes 2 = []` and `primes 8 = [2, 3, 5, 7]`). -/
theorem c1_primes_is_sieve :
    (∀ n : Nat, List.Pairwise (· < ·) (primes n) ∧
      (∀ p : Nat, p ∈ primes n ↔ Nat.Prime p ∧ p < n)) ∧
    primes 2 = [] ∧ primes 8 = [2, 3, 5, 7] := by
  refine ⟨fun n => ⟨primes_sorted n, fun p => primes_mem n p⟩, by decide, ?_⟩
  have h8 : Nat.sqrt 8 = 2 := by
    have h1 : 2 ≤ Nat.sqrt 8 := Nat.le_sqrt'.mpr (by norm_num)
    have h2 : Nat.sqrt 8 < 3 := Nat.sqrt_lt'.mpr (by norm_num)
    omega
  unfold primes
  rw [if_neg (by norm_num), h8]
  decide

/-- CLAIM C8: the two primality implementations agree: for every `n ≥ 0`
and `0 ≤ k < n`, `is_prime k` returns `True` iff `k` is an element of
`primes n`. -/
theorem c8_is_prime_agrees_with_primes :
    ∀ n k : Nat, (is_prime k = true ∧ k < n) ↔ k ∈ primes n := by
  intro n k
  rw [primes_mem, is_prime_iff_prime]

/-! ### `factorise` (src/euler/__init__.py, lines 210-227)

```
def factorise(n):
    if n < 0:
        result = factorise(-n)
        result[0] *= -1
        return result
    for i in range(2, int(1 + math.sqrt(n))):
        if n % i == 0:
            return [i] + factorise(n // i)
    else:
        return [n]
```
The claim concerns `n ≥ 2` only, so the negative branch is not modelled and
`n` is a `Nat`.  The `for`/`else` search for the first divisor in
`range(2, 1 + isqrt(n))` (a list of `Nat.sqrt n - 1` candidates) is
`List.find?` over `List.range' 2 (Nat.sqrt n - 1)`. -/

def smallestFactor (n : Nat) : Option Nat :=
  (List.range' 2 (Nat.sqrt n - 1)).find? (fun i => n % i == 0)

lemma smallestFactor_bounds (n i : Nat) (h : smallestFactor n = some i) :
    2 ≤ i ∧ i ≤ Nat.sqrt n ∧ n % i = 0 ∧ 4 ≤ n := by
  unfold smallestFactor at h
  have hp := List.find?_some h
  have hmod : n % i = 0 := by simpa using hp
  have hm : i ∈ List.range' 2 (Nat.sqrt n - 1) := List.mem_of_find?_eq_some h
  rw [List.mem_range'] at hm
  obtain ⟨j, hj, hij⟩ := hm
  have h4 : 4 ≤ n := by
    have hs2 : 2 ≤ Nat.sqrt n := by omega
    have := Nat.le_sqrt'.mp hs2
    omega
  refine ⟨by omega, by omega, hmod, h4⟩

def factorise (n : Nat) : List Nat :=
  match h : smallestFactor n with
  | some i => i :: factorise (n / i)
  | none => [n]
termination_by n
decreasing_by
  have hb := smallestFactor_bounds n i h
  exact Nat.div_lt_self (by omega) (by omega)

lemma factorise_of_some (n i : Nat) (h : smallestFactor n = some i) :
    factorise n = i :: factorise (n / i) := by
  rw [factorise]
  split
  · next i2 heq =>
    rw [h] at heq
    cases heq
    rfl
  · next heq =>
    rw [h] at heq
    cases heq

lemma factorise_of_none (n : Nat) (h : smallestFactor n = none) :
    factorise n = [n] := by
  rw [factorise]
  split
  · next i2 heq =>
    rw [h] at heq
    cases heq
  · next => rfl

/-- `find?` over an ascending unit-step range returns the least hit. -/
lemma find_least (p : Nat → Bool) :
    ∀ c a i : Nat, (List.range' a c).find? p = some i →
      ∀ j, a ≤ j → j < i → p j = false := by
  intro c
  induction c with
  | zero =>
    intro a i h
    simp [List.range'] at h
  | succ c ih =>
    intro a i h j haj hji
    rw [List.range'_succ] at h
    by_cases hpa : p a = true
    · rw [List.find?_cons_of_pos _ hpa] at h
      cases h
      omega
    · have hpa2 : p a = false := by
        cases hv : p a
        · rfl
        · exact absurd hv hpa
      rw [List.find?_cons_of_neg _ hpa] at h
      rcases Nat.eq_or_lt_of_le haj with he | hlt
      · rw [← he]; exact hpa2
      · exact ih (a + 1) i h j hlt hji

/-- If the divisor search misses, `n ≥ 2` is prime. -/
lemma smallestFactor_none (n : Nat) (hn : 2 ≤ n) (h : smallestFactor n = none) :
    Nat.Prime n := by
  by_contra hnp
  have hmf := Nat.minFac_prime (show n ≠ 1 by omega)
  have hdvd := Nat.minFac_dvd n
  have hsq : Nat.minFac n ^ 2 ≤ n := Nat.minFac_sq_le_self (by omega) hnp
  have hle : Nat.minFac n ≤ Nat.sqrt n := Nat.le_sqrt'.mpr hsq
  have h2f : 2 ≤ Nat.minFac n := hmf.two_le
  have hmem : Nat.minFac n ∈ List.range' 2 (Nat.sqrt n - 1) := by
    rw [List.mem_range']
    exact ⟨Nat.minFac n - 2, by omega, by omega⟩
  unfold smallestFactor at h
  have hnone := List.find?_eq_none.mp h _ hmem
  simp only [beq_iff_eq] at hnone
  exact hnone (Nat.mod_eq_zero_of_dvd hdvd)

/-- A successful divisor search returns exactly `Nat.minFac n`. -/
lemma smallestFactor_eq_minFac (n i : Nat) (hn : 2 ≤ n)
    (h : smallestFactor n = some i) : i = Nat.minFac n := by
  obtain ⟨h2, hsq, hmod, h4⟩ := smallestFactor_bounds n i h
  have hdvd : i ∣ n := Nat.dvd_of_mod_eq_zero hmod
  have hmfle : Nat.minFac n ≤ i := Nat.minFac_le_of_dvd h2 hdvd
  rcases Nat.eq_or_lt_of_le hmfle with he | hlt
  · exact he.symm
  · exfalso
    have h2f : 2 ≤ Nat.minFac n := (Nat.minFac_prime (show n ≠ 1 by omega)).two_le
    have hleast := find_least (fun j => n % j == 0) (Nat.sqrt n - 1) 2 i
      (by unfold smallestFactor at h; exact h) (Nat.minFac n) h2f hlt
    simp only [beq_eq_false_iff_ne, ne_eq] at hleast
    exact hleast (Nat.mod_eq_zero_of_dvd (Nat.minFac_dvd n))

/-- Correctness of `factorise` on inputs `≥ 2`. -/
lemma factorise_spec : ∀ n : Nat, 2 ≤ n →
    List.Pairwise (· ≤ ·) (factorise n) ∧ (∀ p ∈ factorise n, Nat.Prime p) ∧
      (factorise n).prod = n := by
  intro n
  induction n using Nat.strong_induction_on with
  | _ n ih =>
    intro hn2
    cases hfind : smallestFactor n with
    | none =>
      rw [factorise_of_none n hfind]
      have hp := smallestFactor_none n hn2 hfind
      refine ⟨List.pairwise_singleton _ _, ?_, by simp⟩
      intro p hp2
      rw [List.mem_singleton] at hp2
      rw [hp2]
      exact hp
    | some i =>
      rw [factorise_of_some n i hfind]
      obtain ⟨h2, hsq, hmod, h4⟩ := smallestFactor_bounds n i hfind
      have hdvd : i ∣ n := Nat.dvd_of_mod_eq_zero hmod
      have hmf : i = Nat.minFac n := smallestFactor_eq_minFac n i hn2 hfind
      have hprime : Nat.Prime i := hmf ▸ Nat.minFac_prime (show n ≠ 1 by omega)
      set m := n / i with hm
      have hmn : m < n := Nat.div_lt_self (by omega) (by omega)
      have hm2 : 2 ≤ m := by
        rcases Nat.lt_or_ge m 2 with hlt | hge
        · exfalso
          have him : i * m = n := Nat.mul_div_cancel' hdvd
          interval_cases m
          · omega
          · -- m = 1 : n = i ≤ sqrt n, impossible for n ≥ 2
            have hii : i ^ 2 ≤ n := Nat.le_sqrt'.mp hsq
            rw [pow_two] at hii
            have : i = n := by omega
            nlinarith [hii, this]
        · exact hge
      obtain ⟨hsorted, hprimes, hprod⟩ := ih m hmn hm2
      have hmdvd : m ∣ n := Nat.div_dvd_of_dvd hdvd
      refine ⟨?_, ?_, ?_⟩
      · rw [List.pairwise_cons]
        refine ⟨?_, hsorted⟩
        intro b hb
        have hbp := hprimes b hb
        have hbdvd : b ∣ m := hprod ▸ List.dvd_prod hb
        have hbn : b ∣ n := dvd_trans hbdvd hmdvd
        have := Nat.minFac_le_of_dvd hbp.two_le hbn
        omega
      · intro p hp
        rcases List.mem_cons.mp hp with he | hm3
        · rw [he]; exact hprime
        · exact hprimes p hm3
      · rw [List.prod_cons, hprod]
        exact Nat.mul_div_cancel' hdvd

/-- CLAIM C5: for every `n ≥ 2`, `factorise(n)` returns a non-decreasing
list of prime numbers whose product equals `n`. -/
theorem c5_factorise_correct (n : Nat) (hn : 2 ≤ n) :
    List.Pairwise (· ≤ ·) (factorise n) ∧ (∀ p ∈ factorise n, Nat.Prime p) ∧
      (factorise n).prod = n :=
  factorise_spec n hn

/-- Witness for C5 at `n = 12`. -/
theorem c5_factorise_correct_witness :
    2 ≤ 12 ∧ (List.Pairwise (· ≤ ·) (factorise 12) ∧
      (∀ p ∈ factorise 12, Nat.Prime p) ∧ (factorise 12).prod = 12) :=
  ⟨by decide, c5_factorise_correct 12 (by decide)⟩

/-! ### `gcd` and `multiplicative_order` (src/euler/__init__.py, lines
230-232 and 48-54)

```
def gcd(a, b):
    return gcd(b, a % b) if b else a

def multiplicative_order(a, n):
    if gcd(a, n) != 1:
        raise ValueError('Input numbers should be co-prime')
    for k in it.count(1):
        if (a ** k) % n == 1:
            return k
```
Python's floor-mod on a positive divisor equals `Int.emod`; `gcd` is called
with a positive second argument, and afterwards every divisor appearing in
the recursion is non-negative, so `%` below is `Int.emod`.  The unbounded
`for k in it.count(1)` is modelled relationally by `orderFound`: the loop
returns `k` iff `k` is positive, passes the test, and no smaller positive
index does. -/

def gcd (a b : Int) : Int :=
  if _h : b = 0 then a else gcd b (a % b)
termination_by b.natAbs
decreasing_by
  rcases lt_or_gt_of_ne _h with hb | hb
  · have h1 : 0 ≤ a % b := Int.emod_nonneg a _h
    have h2 : a % b < -b := by
      rw [← Int.emod_neg]
      exact Int.emod_lt_of_pos a (by omega)
    omega
  · have h1 : 0 ≤ a % b := Int.emod_nonneg a _h
    have h2 : a % b < b := Int.emod_lt_of_pos a hb
    omega

inductive PyResult (α : Type) where
  | ok (val : α)
  | valueError

def orderFound (a n : Int) (k : Nat) : Prop :=
  1 ≤ k ∧ a ^ k % n = 1 ∧ ∀ j : Nat, 1 ≤ j → j < k → a ^ j % n ≠ 1

def multiplicative_order (a n : Int) (r : PyResult Nat) : Prop :=
  match r with
  | .ok k => gcd a n = 1 ∧ orderFound a n k
  | .valueError => gcd a n ≠ 1

/-- Euclid's step preserves `Int.gcd`. -/
lemma int_gcd_emod (a b : Int) : Int.gcd a b = Int.gcd b (a % b) := by
  apply Nat.dvd_antisymm
  · rw [← Int.natCast_dvd_natCast]
    apply Int.dvd_gcd
    · exact Int.gcd_dvd_right
    · have h1 : a % b = a - b * (a / b) := Int.emod_def a b
      rw [h1]
      exact dvd_sub Int.gcd_dvd_left (Int.gcd_dvd_right.mul_right _)
  · rw [← Int.natCast_dvd_natCast]
    apply Int.dvd_gcd
    · have hd : (↑(Int.gcd b (a % b)) : Int) ∣ a % b + b * (a / b) :=
        dvd_add Int.gcd_dvd_right (Int.gcd_dvd_left.mul_right _)
      rwa [Int.emod_add_ediv a b] at hd
    · exact Int.gcd_dvd_left

/-- The Python `gcd` agrees with `Int.gcd` whenever the second argument is
non-negative and, if it is zero, the first is non-negative too (every call
reachable from a positive modulus has this shape). -/
lemma gcd_eq_int_gcd : ∀ m : Nat, ∀ b : Int, b.natAbs = m → 0 ≤ b →
    ∀ a : Int, (b = 0 → 0 ≤ a) → gcd a b = ↑(Int.gcd a b) := by
  intro m
  induction m using Nat.strong_induction_on with
  | _ m ih =>
    intro b hbm hb0 a ha
    rw [gcd]
    by_cases hb : b = 0
    · rw [dif_pos hb]
      subst hb
      rw [Int.gcd_zero_right]
      exact (Int.natAbs_of_nonneg (ha rfl)).symm
    · rw [dif_neg hb]
      have hbpos : 0 < b := by omega
      have h1 : 0 ≤ a % b := Int.emod_nonneg a hb
      have h2 : a % b < b := Int.emod_lt_of_pos a hbpos
      have hrec := ih (a % b).natAbs (by omega) (a % b) rfl h1 b
        (fun _ => le_of_lt hbpos)
      rw [hrec, ← int_gcd_emod]

/-- For a positive modulus the Python `gcd` is exactly `Int.gcd`. -/
lemma gcd_pos_eq (a n : Int) (hn : 0 < n) : gcd a n = ↑(Int.gcd a n) :=
  gcd_eq_int_gcd n.natAbs n rfl (le_of_lt hn) a (fun h => absurd h (by omega))

/-- A coprime residue has a positive power congruent to `1`: the search loop
in `multiplicative_order` terminates. -/
lemma exists_order (a n : Int) (hn : 2 ≤ n) (hg : Int.gcd a n = 1) :
    ∃ k : Nat, 1 ≤ k ∧ a ^ k % n = 1 := by
  set m : Nat := n.toNat with hm
  have hm2 : 2 ≤ m := by omega
  haveI : NeZero m := ⟨by omega⟩
  have hnm : (m : Int) = n := by omega
  have hco : IsCoprime a n := Int.isCoprime_iff_gcd_eq_one.mpr hg
  obtain ⟨u, v, huv⟩ := hco
  have hcast : (u : ZMod m) * a + v * n = 1 := by
    have := congrArg (fun z : Int => (z : ZMod m)) huv
    push_cast at this
    simpa using this
  have hn0 : ((n : Int) : ZMod m) = 0 := by
    rw [← hnm]
    push_cast
    simp
  have hmul : (a : ZMod m) * u = 1 := by
    have h1 : (u : ZMod m) * a = 1 := by
      rw [← hcast, hn0]
      ring
    rw [mul_comm] at h1
    exact h1
  have hunit : IsUnit ((a : Int) : ZMod m) := isUnit_of_mul_eq_one _ _ hmul
  set w := hunit.unit with hw
  have hord : 0 < orderOf w := orderOf_pos w
  have hpow : w ^ orderOf w = 1 := pow_orderOf_eq_one w
  refine ⟨orderOf w, hord, ?_⟩
  have hval : ((a : Int) : ZMod m) ^ orderOf w = 1 := by
    have h2 := congrArg (Units.val) hpow
    rw [← hunit.unit_spec]
    simpa using h2
  have hmodeq : (a : Int) ^ orderOf w ≡ 1 [ZMOD (m : Nat)] := by
    rw [← ZMod.intCast_eq_intCast_iff]
    push_cast
    simpa using hval
  have h3 : a ^ orderOf w % (m : Int) = 1 % (m : Int) := hmodeq
  rw [hnm] at h3
  rw [h3]
  exact Int.emod_eq_of_lt (by omega) (by omega)

/-- CLAIM C9: for every integer `a` and `n ≥ 2` with `gcd(a, n) = 1`,
`multiplicative_order(a, n)` terminates and returns the smallest positive
`k` with `a ^ k ≡ 1 (mod n)`; for every `a` and positive `n` with
`gcd(a, n) ≠ 1` it raises `ValueError`. -/
theorem c9_multiplicative_order_correct :
    ∀ a n : Int,
      (2 ≤ n → Int.gcd a n = 1 →
        ∃ k : Nat, multiplicative_order a n (.ok k) ∧ 1 ≤ k ∧
          a ^ k ≡ 1 [ZMOD n] ∧
          ∀ j : Nat, 1 ≤ j → j < k → ¬ a ^ j ≡ 1 [ZMOD n]) ∧
      (0 < n → Int.gcd a n ≠ 1 → multiplicative_order a n .valueError) := by
  intro a n
  constructor
  · intro hn hg
    have hone : (1 : Int) % n = 1 := Int.emod_eq_of_lt (by omega) (by omega)
    have hex : ∃ k : Nat, 1 ≤ k ∧ a ^ k % n = 1 := exists_order a n hn hg
    set k0 := Nat.find hex with hk0
    have hspec : 1 ≤ k0 ∧ a ^ k0 % n = 1 := Nat.find_spec hex
    have hgcd1 : gcd a n = 1 := by
      rw [gcd_pos_eq a n (by omega), hg]
      rfl
    have hfound : orderFound a n k0 := by
      refine ⟨hspec.1, hspec.2, fun j hj1 hjk heq => ?_⟩
      exact Nat.find_min hex hjk ⟨hj1, heq⟩
    refine ⟨k0, ⟨hgcd1, hfound⟩, hspec.1, ?_, ?_⟩
    · show a ^ k0 % n = 1 % n
      rw [hspec.2, hone]
    · intro j hj1 hjk hmod
      have heq : a ^ j % n = 1 := by
        have h4 : a ^ j % n = 1 % n := hmod
        rw [hone] at h4
        exact h4
      exact Nat.find_min hex hjk ⟨hj1, heq⟩
  · intro hn0 hg
    show gcd a n ≠ 1
    rw [gcd_pos_eq a n hn0]
    intro h
    exact hg (by exact_mod_cast h)

/-- Witness for C9: order of `2` mod `5` exists; `gcd(4, 2) ≠ 1` raises. -/
theorem c9_multiplicative_order_correct_witness :
    ((2 : Int) ≤ 5 ∧ Int.gcd 2 5 = 1 ∧
      (∃ k : Nat, multiplicative_order 2 5 (.ok k) ∧ 1 ≤ k ∧
        (2 : Int) ^ k ≡ 1 [ZMOD (5 : Int)] ∧
        ∀ j : Nat, 1 ≤ j → j < k → ¬ (2 : Int) ^ j ≡ 1 [ZMOD (5 : Int)])) ∧
    ((0 : Int) < 2 ∧ Int.gcd 4 2 ≠ 1 ∧ multiplicative_order 4 2 .valueError) := by
  constructor
  · exact ⟨by decide, by decide,
      (c9_multiplicative_order_correct 2 5).1 (by decide) (by decide)⟩
  · exact ⟨by decide, by decide,
      (c9_multiplicative_order_correct 4 2).2 (by decide) (by decide)⟩

/-! ### Memo caches (src/euler.py lines 132-143, 69-72, 168-182)

```
def is_prime(n, memo={1: False, 2: True, 3: True}):
    if n not in memo:
        memo[n] = False if n % 2 == 0 or n <= 0 else all(n % i for i in range(3, int(1 + math.sqrt(n)), 2))
    return memo[n]

def collatz_length(n, memo={1: 1}):
    if n not in memo:
        memo[n] = 1 + collatz_length(3 * n + 1 if n % 2 else n // 2)
    return memo[n]

class SetOfThings:
    def __init__(self, test_callable):
        self.test_callable = test_callable
        self.memo = {}
    def __contains__(self, n):
        if n not in memo:
            self.memo[n] = self.test_callable(n)
        return self.memo[n]
```
Each mutable-default-argument dict is modelled as an association list
threaded through the call; the stateful function returns the value
together with the updated memo.  Since `collatz_length` recurses along the
Collatz iteration (whose termination is the open Collatz problem) both its
pure and memoised forms carry an explicit fuel and return `none` on fuel
exhaustion; a `some` result is fuel-independent. -/

def memoLookup {β : Type} : List (Nat × β) → Nat → Option β
  | [], _ => none
  | (k, v) :: rest, key => if k = key then some v else memoLookup rest key

def is_prime_init : List (Nat × Bool) := [(1, false), (2, true), (3, true)]

def is_prime_memo (k : Nat) (m : List (Nat × Bool)) :
    Bool × List (Nat × Bool) :=
  match memoLookup m k with
  | some v => (v, m)
  | none => (isPrimeRaw k, (k, isPrimeRaw k) :: m)

def ValidPrimeMemo (m : List (Nat × Bool)) : Prop :=
  (∀ p ∈ m, p.2 = is_prime p.1) ∧
    (memoLookup m 1).isSome ∧ (memoLookup m 2).isSome ∧
    (memoLookup m 3).isSome

instance (m : List (Nat × Bool)) : Decidable (ValidPrimeMemo m) := by
  unfold ValidPrimeMemo
  exact inferInstance

def set_of_things_contains (test : Nat → Bool) (n : Nat)
    (m : List (Nat × Bool)) : Bool × List (Nat × Bool) :=
  match memoLookup m n with
  | some v => (v, m)
  | none => (test n, (n, test n) :: m)

def ValidSetMemo (test : Nat → Bool) (m : List (Nat × Bool)) : Prop :=
  ∀ p ∈ m, p.2 = test p.1

def collatz_next (k : Nat) : Nat := if k % 2 = 1 then 3 * k + 1 else k / 2

def collatz_length_fuel : Nat → Nat → Option Nat
  | 0, _ => none
  | fuel + 1, k =>
    if k = 1 then some 1
    else
      match collatz_length_fuel fuel (collatz_next k) with
      | none => none
      | some v => some (1 + v)

/-- `CollatzLen k v` : the (memo-free) `collatz_length(k)` computation
terminates with value `v`. -/
def CollatzLen (k v : Nat) : Prop := ∃ fuel, collatz_length_fuel fuel k = some v

def collatz_length_memo : Nat → Nat → List (Nat × Nat) →
    Option (Nat × List (Nat × Nat))
  | 0, _, _ => none
  | fuel + 1, k, m =>
    match memoLookup m k with
    | some v => some (v, m)
    | none =>
      match collatz_length_memo fuel (collatz_next k) m with
      | none => none
      | some (v, m2) => some (1 + v, (k, 1 + v) :: m2)

def ValidCollatzMemo (m : List (Nat × Nat)) : Prop :=
  (∀ p ∈ m, CollatzLen p.1 p.2) ∧ memoLookup m 1 = some 1

/-- Looking up a key in a pointwise-correct memo returns the correct value. -/
lemma memoLookup_valid {β : Type} (f : Nat → β) :
    ∀ (m : List (Nat × β)), (∀ p ∈ m, p.2 = f p.1) →
      ∀ k v, memoLookup m k = some v → v = f k := by
  intro m
  induction m with
  | nil =>
    intro _ k v h
    cases h
  | cons hd tl ih =>
    intro hall k v h
    unfold memoLookup at h
    by_cases hk : hd.1 = k
    · rw [if_pos hk] at h
      cases h
      rw [← hk]
      exact hall hd (List.mem_cons_self hd tl)
    · rw [if_neg hk] at h
      exact ih (fun p hp => hall p (List.mem_cons_of_mem hd hp)) k v h

lemma memoLookup_cons_ne {β : Type} (m : List (Nat × β)) (a k : Nat)
    (v : β) (h : a ≠ k) : memoLookup ((a, v) :: m) k = memoLookup m k := by
  simp [memoLookup, h]

lemma memoLookup_mem {β : Type} :
    ∀ (m : List (Nat × β)) (k : Nat) (v : β),
      memoLookup m k = some v → (k, v) ∈ m := by
  intro m
  induction m with
  | nil => intro k v h; cases h
  | cons hd tl ih =>
    intro k v h
    unfold memoLookup at h
    by_cases hk : hd.1 = k
    · rw [if_pos hk] at h
      cases h
      rw [← hk]
      exact List.mem_cons_self hd tl
    · rw [if_neg hk] at h
      exact List.mem_cons_of_mem hd (ih k v h)

/-- `is_prime` with an arbitrary consistent memo returns the first-call
value and leaves the memo consistent. -/
lemma is_prime_memo_correct (m : List (Nat × Bool)) (k : Nat)
    (hv : ValidPrimeMemo m) :
    (is_prime_memo k m).1 = is_prime k ∧
      ValidPrimeMemo (is_prime_memo k m).2 := by
  obtain ⟨hall, h1, h2, h3⟩ := hv
  unfold is_prime_memo
  cases hl : memoLookup m k with
  | some v =>
    exact ⟨memoLookup_valid is_prime m hall k v hl, hall, h1, h2, h3⟩
  | none =>
    have hk1 : k ≠ 1 := by
      intro he
      rw [he] at hl
      rw [hl] at h1
      cases h1
    have hk2 : k ≠ 2 := by
      intro he
      rw [he] at hl
      rw [hl] at h2
      cases h2
    have hk3 : k ≠ 3 := by
      intro he
      rw [he] at hl
      rw [hl] at h3
      cases h3
    have hraw : isPrimeRaw k = is_prime k := by
      unfold is_prime
      rw [if_neg hk1, if_neg hk2, if_neg hk3]
    refine ⟨hraw, ?_, ?_, ?_, ?_⟩
    · intro p hp
      rcases List.mem_cons.mp hp with he | hm2
      · rw [he]
        exact hraw.symm ▸ rfl
      · exact hall p hm2
    · rw [memoLookup_cons_ne m k 1 _ hk1]
      exact h1
    · rw [memoLookup_cons_ne m k 2 _ hk2]
      exact h2
    · rw [memoLookup_cons_ne m k 3 _ hk3]
      exact h3

/-- `SetOfThings.__contains__` with any consistent memo returns the pure
test value and leaves the memo consistent. -/
lemma set_of_things_correct (test : Nat → Bool) (m : List (Nat × Bool))
    (n : Nat) (hv : ValidSetMemo test m) :
    (set_of_things_contains test n m).1 = test n ∧
      ValidSetMemo test (set_of_things_contains test n m).2 := by
  unfold set_of_things_contains
  cases hl : memoLookup m n with
  | some v =>
    exact ⟨memoLookup_valid test m hv n v hl, hv⟩
  | none =>
    refine ⟨rfl, ?_⟩
    intro p hp
    rcases List.mem_cons.mp hp with he | hm2
    · rw [he]
    · exact hv p hm2

/-- More fuel never changes a successful `collatz_length` computation. -/
lemma collatz_fuel_mono :
    ∀ f1 f2 k v, f1 ≤ f2 → collatz_length_fuel f1 k = some v →
      collatz_length_fuel f2 k = some v := by
  intro f1
  induction f1 with
  | zero =>
    intro f2 k v _ h
    cases h
  | succ f ih =>
    intro f2 k v hle h
    obtain ⟨f2x, rfl⟩ : ∃ f2x, f2 = f2x + 1 := ⟨f2 - 1, by omega⟩
    unfold collatz_length_fuel at h ⊢
    by_cases hk : k = 1
    · rw [if_pos hk] at h ⊢
      exact h
    · rw [if_neg hk] at h ⊢
      cases hc : collatz_length_fuel f (collatz_next k) with
      | none =>
        rw [hc] at h
        cases h
      | some w =>
        rw [hc] at h
        rw [ih f2x (collatz_next k) w (by omega) hc]
        exact h

/-- The `collatz_length` value of `k` is unique when it exists. -/
lemma collatz_len_unique (k v w : Nat) (hv : CollatzLen k v)
    (hw : CollatzLen k w) : v = w := by
  obtain ⟨f1, h1⟩ := hv
  obtain ⟨f2, h2⟩ := hw
  have hv2 := collatz_fuel_mono f1 (max f1 f2) k v (le_max_left f1 f2) h1
  have hw2 := collatz_fuel_mono f2 (max f1 f2) k w (le_max_right f1 f2) h2
  rw [hv2] at hw2
  exact Option.some.inj hw2

/-- `collatz_length` with any consistent memo returns the memo-free value
and leaves the memo consistent. -/
lemma collatz_length_memo_correct :
    ∀ (fuel k : Nat) (m : List (Nat × Nat)) (v : Nat)
      (m2 : List (Nat × Nat)), ValidCollatzMemo m →
      collatz_length_memo fuel k m = some (v, m2) →
      CollatzLen k v ∧ ValidCollatzMemo m2 := by
  intro fuel
  induction fuel with
  | zero =>
    intro k m v m2 _ h
    cases h
  | succ f ih =>
    intro k m v m2 hv h
    unfold collatz_length_memo at h
    cases hl : memoLookup m k with
    | some w =>
      rw [hl] at h
      simp only [Option.some.injEq, Prod.mk.injEq] at h
      obtain ⟨rfl, rfl⟩ := h
      exact ⟨hv.1 (k, w) (memoLookup_mem m k w hl), hv⟩
    | none =>
      rw [hl] at h
      have hk1 : k ≠ 1 := by
        intro he
        rw [he, hv.2] at hl
        cases hl
      cases hc : collatz_length_memo f (collatz_next k) m with
      | none =>
        rw [hc] at h
        cases h
      | some pair =>
        obtain ⟨w, m3⟩ := pair
        rw [hc] at h
        simp only [Option.some.injEq, Prod.mk.injEq] at h
        obtain ⟨rfl, rfl⟩ := h
        obtain ⟨hcl, hval3⟩ := ih (collatz_next k) m w m3 hv hc
        have hclk : CollatzLen k (1 + w) := by
          obtain ⟨fw, hfw⟩ := hcl
          refine ⟨fw + 1, ?_⟩
          unfold collatz_length_fuel
          rw [if_neg hk1, hfw]
        refine ⟨hclk, ?_, ?_⟩
        · intro p hp
          rcases List.mem_cons.mp hp with he | hm2
          · rw [he]
            exact hclk
          · exact hval3.1 p hm2
        · rw [memoLookup_cons_ne m3 k 1 _ hk1]
          exact hval3.2

/-- CLAIM C2: the shared memo caches (the mutable default-argument memos of
`is_prime` and `collatz_length`, and the memo dictionaries of the
`SetOfThings` instances such as `Primes`/`Pentagonals`/`Hexagonals`) never
change any returned value: starting from any consistent cache state — in
particular from the state left behind by any earlier sequence of solution
functions — each call returns exactly the first-call (pure) value, and
leaves the cache consistent again. -/
theorem c2_memo_caches_preserve_results :
    (∀ (m : List (Nat × Bool)) (k : Nat), ValidPrimeMemo m →
      (is_prime_memo k m).1 = is_prime k ∧
        ValidPrimeMemo (is_prime_memo k m).2) ∧
    (∀ (test : Nat → Bool) (m : List (Nat × Bool)) (n : Nat),
      ValidSetMemo test m →
      (set_of_things_contains test n m).1 = test n ∧
        ValidSetMemo test (set_of_things_contains test n m).2) ∧
    (∀ (fuel k : Nat) (m : List (Nat × Nat)) (v : Nat)
      (m2 : List (Nat × Nat)), ValidCollatzMemo m →
      collatz_length_memo fuel k m = some (v, m2) →
      CollatzLen k v ∧ ValidCollatzMemo m2) :=
  ⟨fun m k hv => is_prime_memo_correct m k hv,
   fun test m n hv => set_of_things_correct test m n hv,
   fun fuel k m v m2 hv h => collatz_length_memo_correct fuel k m v m2 hv h⟩

/-- Witness for C2 at concrete cache states. -/
theorem c2_memo_caches_preserve_results_witness :
    (ValidPrimeMemo is_prime_init ∧
      (is_prime_memo 10 is_prime_init).1 = is_prime 10 ∧
      ValidPrimeMemo (is_prime_memo 10 is_prime_init).2) ∧
    (ValidSetMemo is_pentagonal [] ∧
      (set_of_things_contains is_pentagonal 7 []).1 = is_pentagonal 7 ∧
      ValidSetMemo is_pentagonal (set_of_things_contains is_pentagonal 7 []).2) ∧
    (ValidCollatzMemo [(1, 1)] ∧
      collatz_length_memo 10 5 [(1, 1)] =
        some (6, [(5, 6), (16, 5), (8, 4), (4, 3), (2, 2), (1, 1)]) ∧
      CollatzLen 5 6 ∧
      ValidCollatzMemo [(5, 6), (16, 5), (8, 4), (4, 3), (2, 2), (1, 1)]) := by
  have hvp : ValidPrimeMemo is_prime_init := by
    refine ⟨?_, by decide, by decide, by decide⟩
    intro p hp
    rcases List.mem_cons.mp hp with he | hp2
    · rw [he]; decide
    · rcases List.mem_cons.mp hp2 with he | hp3
      · rw [he]; decide
      · rw [List.mem_singleton] at hp3
        rw [hp3]; decide
  have hvs : ValidSetMemo is_pentagonal [] := by
    intro p hp
    cases hp
  have hvc : ValidCollatzMemo [(1, 1)] := by
    refine ⟨?_, rfl⟩
    intro p hp
    rw [List.mem_singleton] at hp
    rw [hp]
    exact ⟨1, rfl⟩
  have hrun : collatz_length_memo 10 5 [(1, 1)] =
      some (6, [(5, 6), (16, 5), (8, 4), (4, 3), (2, 2), (1, 1)]) := by
    decide
  refine ⟨⟨hvp, c2_memo_caches_preserve_results.1 is_prime_init 10 hvp⟩,
    ⟨hvs, c2_memo_caches_preserve_results.2.1 is_pentagonal [] 7 hvs⟩,
    ⟨hvc, hrun, c2_memo_caches_preserve_results.2.2 10 5 [(1, 1)] 6
      [(5, 6), (16, 5), (8, 4), (4, 3), (2, 2), (1, 1)] hvc hrun⟩⟩

/-- Witness for C10 at `k = 3` and `n = 5`. -/
theorem c10_is_pentagonal_round_trip_witness :
    (1 ≤ 3 ∧ is_pentagonal (pentagonal 3) = true) ∧
      (1 ≤ 5 ∧ is_pentagonal 5 = true ∧
        ∃ k : Nat, 1 ≤ k ∧ 5 = pentagonal k) := by
  have h5 : is_pentagonal 5 = true := by
    have hx : isqrt (24 * 5 + 1) = some 11 :=
      (isqrt_eq_some_iff (24 * 5 + 1) 11).mpr (by norm_num)
    unfold is_pentagonal
    rw [hx]
    rfl
  exact ⟨⟨by decide, c10_is_pentagonal_round_trip.1 3 (by decide)⟩,
    by decide, h5, c10_is_pentagonal_round_trip.2 5 (by decide) h5⟩

/-! ### Solution-module layout (src/euler/pNNN.py)

The `euler` package contains 27 problem modules.  All of them except
`p059.py` end in a top-level assignment `result = <integer expression>`
(for `p037`, `p040`, `p046`, `p047`, `p049`, `p052` the assignment sits
inside the search loop that the module always exits through `break`, and in
`p047`/`p052` `result` is the loop variable itself); `p059.py` only
`print`s its answer and never assigns `result`.  Three modules perform
file reads at import time:

* `p042.py` line 15: `Path('data/p042_words.txt').read_text()`
* `p054.py` line 141: `Path('data/p054_poker.txt').read_text()`
* `p059.py` lines 24-25: reads `data/p059_cipher.txt`

These structural facts, checked against the source of each module, are
transcribed into the tables below. -/

def problemModules : List String :=
  ["p004", "p005", "p006", "p009", "p015", "p017", "p026", "p028", "p031",
   "p032", "p033", "p034", "p035", "p037", "p039", "p040", "p041", "p042",
   "p043", "p046", "p047", "p049", "p050", "p051", "p052", "p054", "p059"]

def modulesBindingIntResult : List String :=
  ["p004", "p005", "p006", "p009", "p015", "p017", "p026", "p028", "p031",
   "p032", "p033", "p034", "p035", "p037", "p039", "p040", "p041", "p042",
   "p043", "p046", "p047", "p049", "p050", "p051", "p052", "p054"]

def module_binds_int_result (m : String) : Bool :=
  modulesBindingIntResult.contains m

/-- COUNTEREXAMPLE to C3 as stated: module `p059` is part of the package
but never binds a module-level `result`. -/
theorem c3_counterexample :
    "p059" ∈ problemModules ∧ module_binds_int_result "p059" = false := by
  constructor
  · decide
  · decide

/-- CLAIM C3 (amended): every problem module of the euler package except
`p059` binds a module-level name `result` whose value is an int; `p059`
prints its answer instead of binding `result`. -/
theorem c3_modules_bind_result :
    (∀ m ∈ problemModules, m ≠ "p059" → module_binds_int_result m = true) ∧
      module_binds_int_result "p059" = false := by
  constructor
  · decide
  · decide

/-- Witness for C3 at module `p004`. -/
theorem c3_modules_bind_result_witness :
    "p004" ∈ problemModules ∧ "p004" ≠ "p059" ∧
      module_binds_int_result "p004" = true :=
  ⟨by decide, by decide,
    c3_modules_bind_result.1 "p004" (by decide) (by decide)⟩

/-! ### Data files read by solution modules (for C7) -/

def module_data_files (m : String) : List String :=
  if m = "p042" then ["data/p042_words.txt"]
  else if m = "p054" then ["data/p054_poker.txt"]
  else if m = "p059" then ["data/p059_cipher.txt"]
  else []

def all_data_files_read : List String :=
  ((problemModules.map module_data_files).foldr (· ++ ·) []).dedup

/-- COUNTEREXAMPLE to C7 as stated: the solution modules read three
bundled data files, not two. -/
theorem c7_counterexample :
    all_data_files_read =
      ["data/p042_words.txt", "data/p054_poker.txt", "data/p059_cipher.txt"] ∧
    all_data_files_read.length ≠ 2 := by
  constructor
  · decide
  · decide

/-- CLAIM C7 (amended): across all solution modules the only file reads are
of exactly three small bundled data files (`data/p042_words.txt`,
`data/p054_poker.txt`, `data/p059_cipher.txt`); no solution reads any other
file. -/
theorem c7_data_files :
    all_data_files_read =
      ["data/p042_words.txt", "data/p054_poker.txt", "data/p059_cipher.txt"] ∧
    all_data_files_read.length = 3 ∧
    (∀ m ∈ problemModules, ∀ f ∈ module_data_files m,
      f ∈ all_data_files_read) := by
  refine ⟨by decide, by decide, by decide⟩

/-! ### The self-check harness (src/euler/__init__.py, lines 298-305)

```
total_time = 0
for p in sorted(problems):
    delta, answer = my_timeit(get_result, p)
    total_time += delta
    if answer is not None and type(answer) is not int:
        print(f'{p} result is instance {type(answer)}, expected int')
    print(f' {p}: {answer:16d} ({delta:.02f}s)')
    assert answer == my_answers[p]
```
`get_result` is `getattr(module, 'result', None)`, modelled as an
`Option Int` per module; `my_answers` is an abstract table
`String → Int`.  Formatting `None` with `:16d` raises `TypeError`
(before the `assert` is reached); `assert` raises `AssertionError` when the
comparison fails; otherwise the loop continues. -/

inductive HarnessError where
  | typeError
  | assertionError
deriving DecidableEq

def run_module (answers : String → Int) (p : String) (res : Option Int) :
    Except HarnessError Unit :=
  match res with
  | none => .error .typeError
  | some v => if v = answers p then .ok () else .error .assertionError

def harness (answers : String → Int) :
    List (String × Option Int) → Except HarnessError Unit
  | [] => .ok ()
  | (p, r) :: rest =>
    match run_module answers p r with
    | .ok _ => harness answers rest
    | .error e => .error e

/-- COUNTEREXAMPLE to C4 as stated: running the harness on `p059` (the
module selected by a default `python -m euler` invocation), whose import
binds no `result`, raises `TypeError` while formatting the missing answer —
not `AssertionError` — even though the computed result (`None`) differs
from the recorded expected answer. -/
theorem c4_counterexample :
    harness (fun _ => (129448 : Int)) [("p059", none)] =
      Except.error HarnessError.typeError ∧
    HarnessError.typeError ≠ HarnessError.assertionError := by
  constructor
  · rfl
  · decide

/-- CLAIM C4 (amended): restricted to runs in which every module binds a
result, the harness raises `AssertionError` iff some module's result
differs from the recorded expected answer, and completes without error iff
every result matches.  (A module without `result`, such as `p059`, instead
raises `TypeError` while printing, before the comparison.) -/
theorem c4_harness_verdict (answers : String → Int)
    (mods : List (String × Option Int))
    (hall : ∀ pr ∈ mods, pr.2.isSome = true) :
    (harness answers mods = .ok () ↔
      ∀ pr ∈ mods, pr.2 = some (answers pr.1)) ∧
    (harness answers mods = .error .assertionError ↔
      ∃ pr ∈ mods, pr.2 ≠ some (answers pr.1)) := by
  induction mods with
  | nil =>
    constructor
    · constructor
      · intro _ pr hpr
        cases hpr
      · intro _
        rfl
    · constructor
      · intro h
        cases h
      · rintro ⟨pr, hpr, _⟩
        cases hpr
  | cons hd tl ih =>
    obtain ⟨p, r⟩ := hd
    have hh : r.isSome = true := hall (p, r) (List.mem_cons_self _ _)
    obtain ⟨v, rfl⟩ : ∃ v, r = some v := by
      cases r with
      | none => cases hh
      | some v => exact ⟨v, rfl⟩
    have ihtl := ih (fun pr hpr => hall pr (List.mem_cons_of_mem _ hpr))
    by_cases hv : v = answers p
    · have hrun : harness answers ((p, some v) :: tl) = harness answers tl := by
        simp [harness, run_module, hv]
      rw [hrun]
      constructor
      · rw [ihtl.1]
        constructor
        · intro h pr hpr
          rcases List.mem_cons.mp hpr with he | hm
          · rw [he, hv]
          · exact h pr hm
        · intro h pr hpr
          exact h pr (List.mem_cons_of_mem _ hpr)
      · rw [ihtl.2]
        constructor
        · rintro ⟨pr, hpr, hne⟩
          exact ⟨pr, List.mem_cons_of_mem _ hpr, hne⟩
        · rintro ⟨pr, hpr, hne⟩
          rcases List.mem_cons.mp hpr with he | hm
          · exfalso
            apply hne
            rw [he, hv]
          · exact ⟨pr, hm, hne⟩
    · have hrun : harness answers ((p, some v) :: tl) =
          .error .assertionError := by
        simp [harness, run_module, hv]
      rw [hrun]
      constructor
      · constructor
        · intro h
          cases h
        · intro h
          exfalso
          apply hv
          have := h (p, some v) (List.mem_cons_self _ _)
          exact Option.some.inj this
      · constructor
        · intro _
          refine ⟨(p, some v), List.mem_cons_self _ _, ?_⟩
          intro hc
          exact hv (Option.some.inj hc)
        · intro _
          rfl

/-- Witness for C4 on a one-module run with a matching integer result. -/
theorem c4_harness_verdict_witness :
    (∀ pr ∈ [("p004", some (906609 : Int))], pr.2.isSome = true) ∧
    ((harness (fun _ => (906609 : Int)) [("p004", some (906609 : Int))] =
        .ok () ↔
      ∀ pr ∈ [("p004", some (906609 : Int))],
        pr.2 = some ((fun _ => (906609 : Int)) pr.1)) ∧
     (harness (fun _ => (906609 : Int)) [("p004", some (906609 : Int))] =
        .error .assertionError ↔
      ∃ pr ∈ [("p004", some (906609 : Int))],
        pr.2 ≠ some ((fun _ => (906609 : Int)) pr.1))) :=
  ⟨by decide,
    c4_harness_verdict (fun _ => (906609 : Int))
      [("p004", some (906609 : Int))] (by decide)⟩
